import Mathlib

/-!
Shallow embedding of `contrib/pylib/whence.py` (the WHENCE manifest parser and
YAML serializer) together with theorems settling the specification claims.

The parser `Whence.load_whence` is modelled as a line-by-line state machine
over a list of input lines, returning `Except PErr Whence`.  Python's local
variables `section` and `entry` alias objects stored inside `self.sections`;
the embedding represents them as the index of the last section (always the
current one, since `section` is only rebound at a delimiter) and an optional
pair of indices `(section index, entry index)` for `entry`, so that in-place
mutation through the alias is explicit list surgery.  An unbound local
(`UnboundLocalError` in Python) becomes an error value, as does the
`IndexError` that `strip` can raise and the explicit `raise Exception`.
-/

namespace WhencePy

/-- Characters Python's no-argument `str.strip` / `str.rstrip` remove. -/
def isPySpace (c : Char) : Bool :=
  c = ' ' || c = '\t' || c = '\n' || c = '\r' || c = '\x0b' || c = '\x0c'

/-- Python `line.rstrip()`: drop trailing whitespace. -/
def pyRstrip (s : String) : String :=
  ⟨(s.data.reverse.dropWhile isPySpace).reverse⟩

/-- Python `val.strip()`: drop leading and trailing whitespace. -/
def pyStrip (s : String) : String :=
  ⟨((s.data.dropWhile isPySpace).reverse.dropWhile isPySpace).reverse⟩

/-- Python `desc.strip(" -")`: drop the given characters from both ends. -/
def pyStripChars (cs : List Char) (s : String) : String :=
  ⟨((s.data.dropWhile (fun c => cs.contains c)).reverse.dropWhile
      (fun c => cs.contains c)).reverse⟩

/-- Does `pat` occur at the very start of `l`? -/
def hasPref : List Char → List Char → Bool
  | [], _ => true
  | _ :: _, [] => false
  | a :: as, b :: bs => a = b && hasPref as bs

/-- Split a character list at the first `':'`; `none` when there is none.
Models `line.split(":", 1)` guarded by `":" in line`. -/
def splitColon : List Char → Option (List Char × List Char)
  | [] => none
  | c :: cs =>
    if c = ':' then some ([], cs)
    else (splitColon cs).map (fun p => (c :: p.1, p.2))

/-- `key, val = line.split(":", 1); val = val.strip()` when the line has a
colon, else `key = None`. -/
def splitKey (line : String) : Option (String × String) :=
  (splitColon line.data).map (fun p => (⟨p.1⟩, pyStrip ⟨p.2⟩))

/-- Split a character list around the first occurrence of the pattern:
`some (before, after)`, or `none` when the pattern does not occur.
Models Python `str.partition` (and substring membership via `isSome`). -/
def findSub (pat : List Char) : List Char → Option (List Char × List Char)
  | [] => if hasPref pat [] then some ([], []) else none
  | c :: cs =>
    if hasPref pat (c :: cs) then some ([], (c :: cs).drop pat.length)
    else (findSub pat cs).map (fun p => (c :: p.1, p.2))

/-- `sub in s` for strings. -/
def hasSub (pat s : String) : Bool :=
  (findSub pat.data s.data).isSome

/-- `path, _, target = val.partition(" -> ")`. -/
def pyPartitionArrow (val : String) : String × String :=
  match findSub " -> ".data val.data with
  | some (before, after) => (⟨before⟩, ⟨after⟩)
  | none => (val, "")

/-- `line.startswith("----------")`: ten dashes at line start. -/
def isDelim (line : String) : Bool :=
  hasPref "----------".data line.data

/-- Attempt to match the regex `(LICEN[CS]E\.[^ ]+) for details` at the very
start of `l`, returning the text of group 1.  The greedy `[^ ]+` must consume
the whole maximal run of non-space characters, because the literal that
follows starts with a space. -/
def licAt (l : List Char) : Option (List Char) :=
  match l with
  | 'L' :: 'I' :: 'C' :: 'E' :: 'N' :: c :: 'E' :: '.' :: rest =>
    if c = 'C' || c = 'S' then
      let run := rest.takeWhile (fun ch => ch ≠ ' ')
      let tail := rest.dropWhile (fun ch => ch ≠ ' ')
      if run ≠ [] && hasPref " for details".data tail then
        some (['L', 'I', 'C', 'E', 'N', c, 'E', '.'] ++ run)
      else none
    else none
  | _ => none

/-- Leftmost search for the pattern above, as `re.search` does. -/
def reSearchLic : List Char → Option (List Char)
  | [] => none
  | c :: cs =>
    match licAt (c :: cs) with
    | some g => some g
    | none => reSearchLic cs

/-- `re.search(r"(LICEN[CS]E\.[^ ]+) for details", line)`, returning group 1. -/
def licenceSearch (line : String) : Option String :=
  (reSearchLic line.data).map (fun g => ⟨g⟩)

/-- WHENCE file/link entry (dataclass `Entry`). -/
structure Entry where
  type : String := ""
  path : String := ""
  target : String := ""
  sources : List String := []
  version : String := ""
  info : String := ""
  origin : String := ""
  deriving DecidableEq, Repr

/-- WHENCE driver section (dataclass `Section`). -/
structure Section where
  driver : String := ""
  module : String := ""
  description : String := ""
  licence : List String := []
  licence_file : String := ""
  notes : List String := []
  entries : List Entry := []
  deriving DecidableEq, Repr

/-- Main WHENCE document (dataclass `Whence`). -/
structure Whence where
  header : List String := []
  sections : List Section := []
  deriving DecidableEq, Repr

/-- The errors `load_whence` can raise: `UnboundLocalError` on the `section`
or `entry` local, the explicit `raise Exception(f"Failed to parse line: …")`,
and the `IndexError` from `strip`. -/
inductive PErr where
  | noSection (line : String)
  | noEntry (line : String)
  | malformedLine (line : String)
  | stripIndexError
  deriving DecidableEq, Repr

/-- Parser state constants HEADER/SECTION/NOTES/LICENCE. -/
inductive WType where
  | header
  | sec
  | notes
  | licence
  deriving DecidableEq, Repr

/-- In-progress parse state.  The Python local `section` is bound exactly when
`sections` is non-empty and then aliases the last element; `cur_entry` holds
the position of the object aliased by the Python local `entry`. -/
structure PState where
  header : List String := []
  sections : List Section := []
  whence_type : WType := WType.header
  cur_entry : Option (Nat × Nat) := none
  deriving DecidableEq, Repr

/-- Apply `f` to the last element of a list (the section currently aliased by
the Python local `section`). -/
def modLast : List Section → (Section → Section) → List Section
  | [], _ => []
  | [s], f => [f s]
  | s :: rest, f => s :: modLast rest f

/-- Apply `f` to entry `j` of section `i`, in place. -/
def modEntry (ss : List Section) (i j : Nat) (f : Entry → Entry) : List Section :=
  match ss.get? i with
  | none => ss
  | some s =>
    match s.entries.get? j with
    | none => ss
    | some e => ss.set i { s with entries := s.entries.set j (f e) }

/-- `Remove leading and trailing empty strings from a list of strings`: the
first inner loop of `strip`, `while obj[0] == "": obj = obj[1:]`, where
indexing the empty list raises `IndexError` (`none`). -/
def dropLeadingEmpty : List String → Option (List String)
  | [] => none
  | x :: xs => if x = "" then dropLeadingEmpty xs else some (x :: xs)

/-- The `strip` helper of `whence.py`.  `none` models the `IndexError` raised
when a non-empty list consists solely of empty strings. -/
def strip (obj : List String) : Option (List String) :=
  if obj = [] then some obj
  else
    match dropLeadingEmpty obj with
    | none => none
    | some a =>
      match dropLeadingEmpty a.reverse with
      | none => none
      | some b => some b.reverse

/-- Split a character list at the first space character; `none` when there is
no space.  Models `val.split(" ", 1)` under the guard `" " in val`. -/
def splitFirstSpace : List Char → Option (List Char × List Char)
  | [] => none
  | c :: cs =>
    if c = ' ' then some ([], cs)
    else (splitFirstSpace cs).map (fun p => (c :: p.1, p.2))

/-- The `key == "Driver"` branch: `section.driver = val`, then split on the
first space into module and description, `desc.strip(" -")`.  Touching the
`section` local while unbound raises. -/
def doDriver (line val : String) (st : PState) : Except PErr PState :=
  if st.sections = [] then Except.error (PErr.noSection line)
  else
    match splitFirstSpace val.data with
    | some p =>
      Except.ok { st with sections := modLast st.sections (fun s =>
        { s with driver := val, module := ⟨p.1⟩,
                 description := pyStripChars [' ', '-'] ⟨p.2⟩ }) }
    | none =>
      Except.ok { st with sections := modLast st.sections (fun s =>
        { s with driver := val, module := val, description := "" }) }

/-- The `key in ("File", "RawFile")` branch: a new Entry of that type is
appended to the current section's entries and becomes the current entry. -/
def doFile (key line val : String) (st : PState) : Except PErr PState :=
  if h : st.sections = [] then Except.error (PErr.noSection line)
  else
    Except.ok { st with
      sections := modLast st.sections (fun s =>
        { s with entries := s.entries ++ [{ type := key, path := val }] }),
      cur_entry :=
        some (st.sections.length - 1, (st.sections.getLast h).entries.length) }

/-- The `key == "Version"` branch: `entry.version = val` on the aliased
current entry. -/
def doVersion (line val : String) (st : PState) : Except PErr PState :=
  match st.cur_entry with
  | none => Except.error (PErr.noEntry line)
  | some (i, j) =>
    Except.ok { st with sections := modEntry st.sections i j (fun e =>
      { e with version := val }) }

/-- The `key == "Link"` branch: `val.partition(" -> ")`, new Link entry. -/
def doLink (line val : String) (st : PState) : Except PErr PState :=
  if h : st.sections = [] then Except.error (PErr.noSection line)
  else
    Except.ok { st with
      sections := modLast st.sections (fun s =>
        { s with entries := s.entries ++
            [{ type := "Link", path := (pyPartitionArrow val).1,
               target := (pyPartitionArrow val).2 }] }),
      cur_entry :=
        some (st.sections.length - 1, (st.sections.getLast h).entries.length) }

/-- The `key == "Source"` branch: `entry.sources.append(val)`. -/
def doSource (line val : String) (st : PState) : Except PErr PState :=
  match st.cur_entry with
  | none => Except.error (PErr.noEntry line)
  | some (i, j) =>
    Except.ok { st with sections := modEntry st.sections i j (fun e =>
      { e with sources := e.sources ++ [val] }) }

/-- The `key == "Info"` branch: `entry.info = val`. -/
def doInfo (line val : String) (st : PState) : Except PErr PState :=
  match st.cur_entry with
  | none => Except.error (PErr.noEntry line)
  | some (i, j) =>
    Except.ok { st with sections := modEntry st.sections i j (fun e =>
      { e with info := val }) }

/-- The `key == "Origin"` branch: `entry.origin = val`. -/
def doOrigin (line val : String) (st : PState) : Except PErr PState :=
  match st.cur_entry with
  | none => Except.error (PErr.noEntry line)
  | some (i, j) =>
    Except.ok { st with sections := modEntry st.sections i j (fun e =>
      { e with origin := val }) }

/-- The `key in ("Licence", "License")` branch: move to the LICENCE state,
append `val or "--"` to the section's licence list, and scan the whole line
for the licence-file pattern. -/
def doLicence (line val : String) (st : PState) : Except PErr PState :=
  if st.sections = [] then Except.error (PErr.noSection line)
  else
    Except.ok { st with
      whence_type := WType.licence,
      sections := modLast st.sections (fun s =>
        { s with
          licence := s.licence ++ [if val = "" then "--" else val],
          licence_file :=
            match licenceSearch line with
            | some f => f
            | none => s.licence_file }) }

/-- State-dependent free-text handling: the four trailing `if` blocks of the
loop body, in source order, ending in the `raise Exception` for a non-empty
line that no state accepted. -/
def fallback (st : PState) (line : String) : Except PErr PState :=
  if st.whence_type = WType.header then
    Except.ok { st with header := st.header ++ [line] }
  else if st.whence_type = WType.notes ∨
      (st.whence_type = WType.sec ∧ line ≠ "") then
    Except.ok { st with
      whence_type := WType.notes,
      sections := modLast st.sections (fun s =>
        { s with notes := s.notes ++ [line] }) }
  else if st.whence_type = WType.licence then
    Except.ok { st with sections := modLast st.sections (fun s =>
      { s with licence := s.licence ++ [line] }) }
  else if line ≠ "" then Except.error (PErr.malformedLine line)
  else Except.ok st

/-- Dispatch on the key extracted before the first colon: the chain of
`if key == …` blocks, falling through to the free-text handling. -/
def keyedAction (key line val : String) (st : PState) : Except PErr PState :=
  if key = "Driver" then doDriver line val st
  else if key = "File" ∨ key = "RawFile" then doFile key line val st
  else if key = "Version" then doVersion line val st
  else if key = "Link" then doLink line val st
  else if key = "Source" then doSource line val st
  else if key = "Info" then doInfo line val st
  else if key = "Origin" then doOrigin line val st
  else if key = "Licence" ∨ key = "License" then doLicence line val st
  else fallback st line

/-- The loop body after `line = line.rstrip()`: handle the section delimiter
first, then the keyed recognizers, then state-dependent free text. -/
def stepLine (st : PState) (line : String) : Except PErr PState :=
  if isDelim line then
    Except.ok { st with
      sections := st.sections ++ [{}],
      whence_type := WType.sec }
  else
    match splitKey line with
    | some kv => keyedAction kv.1 line kv.2 st
    | none => fallback st line

/-- One iteration of the `for line in fh` loop. -/
def step (st : PState) (raw : String) : Except PErr PState :=
  stepLine st (pyRstrip raw)

/-- Run the loop over all input lines. -/
def processLines (st : PState) : List String → Except PErr PState
  | [] => Except.ok st
  | raw :: rest =>
    match step st raw with
    | Except.error e => Except.error e
    | Except.ok st2 => processLines st2 rest

/-- Strip a section's licence and notes lists, as the end-of-parse loop does. -/
def stripSection (s : Section) : Option Section :=
  match strip s.licence with
  | none => none
  | some lic =>
    match strip s.notes with
    | none => none
    | some nts => some { s with licence := lic, notes := nts }

/-- `List.mapM` over `Option`, written out. -/
def mapOpt (f : α → Option β) : List α → Option (List β)
  | [] => some []
  | x :: xs =>
    match f x, mapOpt f xs with
    | some y, some ys => some (y :: ys)
    | _, _ => none

/-- `Whence.load_whence`, as a function of the file's lines: run the state
machine from the initial HEADER state, then strip leading/trailing empty
lines from the header and from every section's licence and notes. -/
def load_whence (rawLines : List String) : Except PErr Whence :=
  match processLines {} rawLines with
  | Except.error e => Except.error e
  | Except.ok st =>
    match strip st.header with
    | none => Except.error PErr.stripIndexError
    | some h =>
      match mapOpt stripSection st.sections with
      | none => Except.error PErr.stripIndexError
      | some ss => Except.ok { header := h, sections := ss }

/-- Value of one field of an Entry mapping produced by `asdict`. -/
inductive EVal where
  | str (v : String)
  | strs (v : List String)
  deriving DecidableEq, Repr

/-- Value of one field of a Section mapping produced by `asdict`. -/
inductive SVal where
  | str (v : String)
  | strs (v : List String)
  | ents (v : List (List (String × EVal)))
  deriving DecidableEq, Repr

/-- Value of one top-level field of the `asdict` result. -/
inductive TVal where
  | strs (v : List String)
  | secs (v : List (List (String × SVal)))
  deriving DecidableEq, Repr

/-- Python falsiness of an entry-field value (`if not e[key]`). -/
def emptyE : EVal → Bool
  | EVal.str v => v = ""
  | EVal.strs v => v = []

/-- Python falsiness of a section-field value (`if not s[key]`). -/
def emptyS : SVal → Bool
  | SVal.str v => v = ""
  | SVal.strs v => v = []
  | SVal.ents v => v = []

/-- `asdict` on an Entry: field order is dataclass declaration order. -/
def asdictEntry (e : Entry) : List (String × EVal) :=
  [("type", EVal.str e.type), ("path", EVal.str e.path),
   ("target", EVal.str e.target), ("sources", EVal.strs e.sources),
   ("version", EVal.str e.version), ("info", EVal.str e.info),
   ("origin", EVal.str e.origin)]

/-- `asdict` on a Section. -/
def asdictSection (s : Section) : List (String × SVal) :=
  [("driver", SVal.str s.driver), ("module", SVal.str s.module),
   ("description", SVal.str s.description), ("licence", SVal.strs s.licence),
   ("licence_file", SVal.str s.licence_file), ("notes", SVal.strs s.notes),
   ("entries", SVal.ents (s.entries.map asdictEntry))]

/-- `asdict` on the whole document. -/
def asdictWhence (w : Whence) : List (String × TVal) :=
  [("header", TVal.strs w.header),
   ("sections", TVal.secs (w.sections.map asdictSection))]

/-- First-match association lookup, as dict indexing. -/
def lookupS : List (String × SVal) → String → Option SVal
  | [], _ => none
  | kv :: rest, k => if kv.1 = k then some kv.2 else lookupS rest k

/-- Replace the value stored under the first occurrence of a key. -/
def setS : List (String × SVal) → String → SVal → List (String × SVal)
  | [], _, _ => []
  | kv :: rest, k, v =>
    if kv.1 = k then (k, v) :: rest else kv :: setS rest k v

/-- The body of the per-section clean-up loop in `save_yaml`: delete falsy
keys from the section mapping, then iterate `s["entries"]` — a `KeyError`
(`none`) when the entries list was empty and hence just deleted — deleting
falsy keys from each entry mapping in place. -/
def processSection (s : List (String × SVal)) : Option (List (String × SVal)) :=
  match lookupS (s.filter (fun kv => !emptyS kv.2)) "entries" with
  | some (SVal.ents es) =>
    some (setS (s.filter (fun kv => !emptyS kv.2)) "entries"
      (SVal.ents (es.map (fun e => e.filter (fun kv => !emptyE kv.2)))))
  | _ => none

/-- `Whence.save_yaml` up to the serialized mapping structure handed to the
YAML emitter (the file write itself is outside the model).  `none` models the
`KeyError` raised when `remove_empty` is set and some section has no
entries. -/
def save_yaml (w : Whence) (remove_empty : Bool) : Option (List (String × TVal)) :=
  let d := asdictWhence w
  if remove_empty then
    match mapOpt processSection (w.sections.map asdictSection) with
    | none => none
    | some ss => some [("header", TVal.strs w.header), ("sections", TVal.secs ss)]
  else some d

/-- Does a parse result consist of the malformed-line failure? -/
def isMalformedErr : Except PErr Whence → Bool
  | Except.error (PErr.malformedLine _) => true
  | _ => false

/-- The keys handled by the keyed-field recognizer chain. -/
def isRecognizedKey (key : String) : Bool :=
  key = "Driver" || key = "File" || key = "RawFile" || key = "Version" ||
    key = "Link" || key = "Source" || key = "Info" || key = "Origin" ||
    key = "Licence" || key = "License"

/-- A list of lines neither begins nor ends with an empty line. -/
def NoEmptyEnds (l : List String) : Prop :=
  l.head? ≠ some "" ∧ l.getLast? ≠ some ""

end WhencePy

namespace WhencePy

lemma modLast_map {α : Type} (g : Section → α) :
    ∀ (ss : List Section) (f : Section → Section),
      (∀ s, g (f s) = g s) → (modLast ss f).map g = ss.map g := by
  intro ss
  induction ss with
  | nil => intro f _; rfl
  | cons s rest ih =>
    intro f h
    cases rest with
    | nil => simp [modLast, h]
    | cons t ts => simp only [modLast, List.map_cons, ih _ h]

lemma map_set_invariant {α β : Type} (g : α → β) :
    ∀ (l : List α) (i : Nat) (a b : α), l.get? i = some b → g a = g b →
      (l.set i a).map g = l.map g := by
  intro l
  induction l with
  | nil => intro i a b h _; simp at h
  | cons x xs ih =>
    intro i a b h hg
    cases i with
    | zero =>
      simp only [List.get?] at h
      cases h
      simp [List.set, hg]
    | succ n =>
      simp only [List.get?] at h
      simp only [List.set, List.map_cons]
      rw [ih n a b h hg]

lemma modEntry_map_of {α : Type} {g : Section → α}
    (hg : ∀ (s : Section) (es : List Entry), g { s with entries := es } = g s) :
    ∀ (ss : List Section) (i j : Nat) (f : Entry → Entry),
      (modEntry ss i j f).map g = ss.map g := by
  intro ss i j f
  unfold modEntry
  split
  · rfl
  · rename_i s hs
    split
    · rfl
    · rename_i e he
      exact map_set_invariant g ss i _ s hs (hg s _)

lemma fallback_no_malformed (st : PState) (line l : String) :
    fallback st line ≠ Except.error (PErr.malformedLine l) := by
  unfold fallback
  rcases st with ⟨hd, ss, wt, ce⟩
  cases wt <;> by_cases hl : line = "" <;> simp [hl]

lemma keyedAction_no_malformed (key line val : String) (st : PState) (l : String) :
    keyedAction key line val st ≠ Except.error (PErr.malformedLine l) := by
  unfold keyedAction doDriver doFile doVersion doLink doSource doInfo doOrigin doLicence
  repeat' split
  all_goals first
    | exact fallback_no_malformed st line l
    | simp

lemma stepLine_no_malformed (st : PState) (line l : String) :
    stepLine st line ≠ Except.error (PErr.malformedLine l) := by
  unfold stepLine
  split
  · simp
  · split
    · exact keyedAction_no_malformed _ _ _ st l
    · exact fallback_no_malformed st _ l

lemma step_no_malformed (st : PState) (raw l : String) :
    step st raw ≠ Except.error (PErr.malformedLine l) :=
  stepLine_no_malformed st (pyRstrip raw) l

lemma processLines_no_malformed :
    ∀ (ls : List String) (st : PState) (l : String),
      processLines st ls ≠ Except.error (PErr.malformedLine l) := by
  intro ls
  induction ls with
  | nil => intro st l h; simp [processLines] at h
  | cons raw rest ih =>
    intro st l
    unfold processLines
    cases hstep : step st raw with
    | error e =>
      intro h
      rw [Except.error.injEq] at h
      exact step_no_malformed st raw l (by rw [hstep, h])
    | ok st2 => exact ih st2 l

lemma doDriver_pres {line val : String} {st st2 : PState}
    (h : doDriver line val st = Except.ok st2) :
    st2.header = st.header ∧
    st2.sections.map Section.notes = st.sections.map Section.notes ∧
    st2.sections.map Section.licence = st.sections.map Section.licence ∧
    st2.whence_type = st.whence_type := by
  unfold doDriver at h
  split at h
  · exact Except.noConfusion h
  · split at h <;>
    · injection h with h
      subst h
      exact ⟨rfl, modLast_map _ _ _ (fun s => rfl),
             modLast_map _ _ _ (fun s => rfl), rfl⟩

lemma doFile_pres {key line val : String} {st st2 : PState}
    (h : doFile key line val st = Except.ok st2) :
    st2.header = st.header ∧
    st2.sections.map Section.notes = st.sections.map Section.notes ∧
    st2.sections.map Section.licence = st.sections.map Section.licence ∧
    st2.whence_type = st.whence_type := by
  unfold doFile at h
  split at h
  · exact Except.noConfusion h
  · injection h with h
    subst h
    exact ⟨rfl, modLast_map _ _ _ (fun s => rfl),
           modLast_map _ _ _ (fun s => rfl), rfl⟩

lemma doLink_pres {line val : String} {st st2 : PState}
    (h : doLink line val st = Except.ok st2) :
    st2.header = st.header ∧
    st2.sections.map Section.notes = st.sections.map Section.notes ∧
    st2.sections.map Section.licence = st.sections.map Section.licence ∧
    st2.whence_type = st.whence_type := by
  unfold doLink at h
  split at h
  · exact Except.noConfusion h
  · injection h with h
    subst h
    exact ⟨rfl, modLast_map _ _ _ (fun s => rfl),
           modLast_map _ _ _ (fun s => rfl), rfl⟩

lemma doVersion_pres {line val : String} {st st2 : PState}
    (h : doVersion line val st = Except.ok st2) :
    st2.header = st.header ∧
    st2.sections.map Section.notes = st.sections.map Section.notes ∧
    st2.sections.map Section.licence = st.sections.map Section.licence ∧
    st2.whence_type = st.whence_type := by
  unfold doVersion at h
  split at h
  · exact Except.noConfusion h
  · injection h with h
    subst h
    exact ⟨rfl, @modEntry_map_of _ Section.notes (fun s es => rfl) _ _ _ _,
           @modEntry_map_of _ Section.licence (fun s es => rfl) _ _ _ _, rfl⟩

lemma doSource_pres {line val : String} {st st2 : PState}
    (h : doSource line val st = Except.ok st2) :
    st2.header = st.header ∧
    st2.sections.map Section.notes = st.sections.map Section.notes ∧
    st2.sections.map Section.licence = st.sections.map Section.licence ∧
    st2.whence_type = st.whence_type := by
  unfold doSource at h
  split at h
  · exact Except.noConfusion h
  · injection h with h
    subst h
    exact ⟨rfl, @modEntry_map_of _ Section.notes (fun s es => rfl) _ _ _ _,
           @modEntry_map_of _ Section.licence (fun s es => rfl) _ _ _ _, rfl⟩

lemma doInfo_pres {line val : String} {st st2 : PState}
    (h : doInfo line val st = Except.ok st2) :
    st2.header = st.header ∧
    st2.sections.map Section.notes = st.sections.map Section.notes ∧
    st2.sections.map Section.licence = st.sections.map Section.licence ∧
    st2.whence_type = st.whence_type := by
  unfold doInfo at h
  split at h
  · exact Except.noConfusion h
  · injection h with h
    subst h
    exact ⟨rfl, @modEntry_map_of _ Section.notes (fun s es => rfl) _ _ _ _,
           @modEntry_map_of _ Section.licence (fun s es => rfl) _ _ _ _, rfl⟩

lemma doOrigin_pres {line val : String} {st st2 : PState}
    (h : doOrigin line val st = Except.ok st2) :
    st2.header = st.header ∧
    st2.sections.map Section.notes = st.sections.map Section.notes ∧
    st2.sections.map Section.licence = st.sections.map Section.licence ∧
    st2.whence_type = st.whence_type := by
  unfold doOrigin at h
  split at h
  · exact Except.noConfusion h
  · injection h with h
    subst h
    exact ⟨rfl, @modEntry_map_of _ Section.notes (fun s es => rfl) _ _ _ _,
           @modEntry_map_of _ Section.licence (fun s es => rfl) _ _ _ _, rfl⟩

lemma doLicence_pres {line val : String} {st st2 : PState}
    (h : doLicence line val st = Except.ok st2) :
    st2.header = st.header ∧
    st2.sections.map Section.notes = st.sections.map Section.notes ∧
    st2.whence_type = WType.licence := by
  unfold doLicence at h
  split at h
  · exact Except.noConfusion h
  · injection h with h
    subst h
    exact ⟨rfl, modLast_map _ _ _ (fun s => rfl), rfl⟩

/-- C2: the section-delimiter rule is checked first on every line in every
state and unconditionally appends a fresh Section; a non-delimiter line whose
key matches one of the recognizers is dispatched to that recognizer's action
whatever the state is, and on success such a line never reaches the
state-dependent free-text fallback: the header and every section's notes are
unchanged, and licence lists are unchanged except by the Licence/License
recognizer itself. -/
theorem C2_delimiter_and_keyed_priority :
    (∀ (st : PState) (raw : String), isDelim (pyRstrip raw) = true →
        step st raw =
          Except.ok { st with sections := st.sections ++ [{}],
                              whence_type := WType.sec }) ∧
    (∀ (st : PState) (raw key val : String),
        isDelim (pyRstrip raw) = false →
        splitKey (pyRstrip raw) = some (key, val) →
        isRecognizedKey key = true →
        step st raw = keyedAction key (pyRstrip raw) val st) ∧
    (∀ (key line val : String) (st st2 : PState),
        isRecognizedKey key = true →
        keyedAction key line val st = Except.ok st2 →
        st2.header = st.header ∧
        st2.sections.map Section.notes = st.sections.map Section.notes ∧
        (key ≠ "Licence" → key ≠ "License" →
          st2.sections.map Section.licence = st.sections.map Section.licence)) := by
  refine ⟨?_, ?_, ?_⟩
  · intro st raw h
    simp [step, stepLine, h]
  · intro st raw key val h1 h2 _
    simp [step, stepLine, h1, h2]
  · intro key line val st st2 hk h2
    unfold keyedAction at h2
    repeat' split at h2
    · exact ⟨(doDriver_pres h2).1, (doDriver_pres h2).2.1,
             fun _ _ => (doDriver_pres h2).2.2.1⟩
    · exact ⟨(doFile_pres h2).1, (doFile_pres h2).2.1,
             fun _ _ => (doFile_pres h2).2.2.1⟩
    · exact ⟨(doVersion_pres h2).1, (doVersion_pres h2).2.1,
             fun _ _ => (doVersion_pres h2).2.2.1⟩
    · exact ⟨(doLink_pres h2).1, (doLink_pres h2).2.1,
             fun _ _ => (doLink_pres h2).2.2.1⟩
    · exact ⟨(doSource_pres h2).1, (doSource_pres h2).2.1,
             fun _ _ => (doSource_pres h2).2.2.1⟩
    · exact ⟨(doInfo_pres h2).1, (doInfo_pres h2).2.1,
             fun _ _ => (doInfo_pres h2).2.2.1⟩
    · exact ⟨(doOrigin_pres h2).1, (doOrigin_pres h2).2.1,
             fun _ _ => (doOrigin_pres h2).2.2.1⟩
    · rename_i hkey
      refine ⟨(doLicence_pres h2).1, (doLicence_pres h2).2.1, ?_⟩
      intro hL hL2
      rcases hkey with h | h
      · exact absurd h hL
      · exact absurd h hL2
    · simp_all [isRecognizedKey]

/-- Concrete instantiation of the three parts of the previous theorem. -/
theorem C2_delimiter_and_keyed_priority_witness :
    (step {} "----------" =
        Except.ok { sections := [({} : Section)], whence_type := WType.sec }) ∧
    (step { whence_type := WType.licence } "File: a" =
        keyedAction "File" "File: a" "a" { whence_type := WType.licence }) ∧
    (({ sections := [{ driver := "a", module := "a" }] } : PState).header =
        ({ sections := [({} : Section)] } : PState).header ∧
      ({ sections := [{ driver := "a", module := "a" }] } : PState).sections.map
          Section.notes =
        ({ sections := [({} : Section)] } : PState).sections.map Section.notes ∧
      ("Driver" ≠ "Licence" → "Driver" ≠ "License" →
        ({ sections := [{ driver := "a", module := "a" }] } : PState).sections.map
            Section.licence =
          ({ sections := [({} : Section)] } : PState).sections.map
            Section.licence)) :=
  ⟨C2_delimiter_and_keyed_priority.1 {} "----------" (by decide),
   C2_delimiter_and_keyed_priority.2.1 { whence_type := WType.licence }
     "File: a" "File" "a" (by decide) (by decide) (by decide),
   C2_delimiter_and_keyed_priority.2.2 "Driver" "Driver: a" "a"
     { sections := [({} : Section)] }
     { sections := [{ driver := "a", module := "a" }] }
     (by decide) (by rfl)⟩

/-- C1: `load_whence` raises the malformed-line failure if and only if a
non-empty line cannot be attributed to any rule in a state that disallows
free text.  In this code every state accepts free text (HEADER, NOTES and
LICENCE append it; SECTION promotes non-empty lines to NOTES and drops empty
ones), so both sides of the biconditional are always false: no input at all
produces the malformed-line failure. -/
theorem C1_no_malformed_line_error (rawLines : List String) :
    isMalformedErr (load_whence rawLines) = false := by
  unfold load_whence
  cases hp : processLines {} rawLines with
  | error e =>
    cases e with
    | malformedLine l => exact absurd hp (processLines_no_malformed rawLines {} l)
    | noSection l => rfl
    | noEntry l => rfl
    | stripIndexError => rfl
  | ok st =>
    dsimp only
    cases strip st.header with
    | none => rfl
    | some h =>
      dsimp only
      cases mapOpt stripSection st.sections with
      | none => rfl
      | some ss => rfl

lemma dropLeadingEmpty_some :
    ∀ {l m : List String}, dropLeadingEmpty l = some m →
      m ≠ [] ∧ m.head? ≠ some "" ∧ m.getLast? = l.getLast? := by
  intro l
  induction l with
  | nil => intro m h; exact Option.noConfusion h
  | cons x xs ih =>
    intro m h
    unfold dropLeadingEmpty at h
    split at h
    · rename_i hx
      obtain ⟨hm1, hm2, hm3⟩ := ih h
      refine ⟨hm1, hm2, ?_⟩
      cases xs with
      | nil => exact absurd h (by simp [dropLeadingEmpty])
      | cons y ys => rw [hm3, List.getLast?_cons_cons]
    · rename_i hx
      injection h with h
      subst h
      exact ⟨by simp, by simpa using hx, rfl⟩

lemma strip_some_noEmptyEnds {l r : List String} (h : strip l = some r) :
    NoEmptyEnds r := by
  unfold strip at h
  split at h
  · injection h with h
    subst h
    rename_i hl
    subst hl
    exact ⟨by simp, by simp⟩
  · cases ha : dropLeadingEmpty l with
    | none => rw [ha] at h; exact Option.noConfusion h
    | some a =>
      rw [ha] at h
      dsimp only at h
      cases hb : dropLeadingEmpty a.reverse with
      | none => rw [hb] at h; exact Option.noConfusion h
      | some b =>
        rw [hb] at h
        injection h with h
        subst h
        obtain ⟨_, ha2, _⟩ := dropLeadingEmpty_some ha
        obtain ⟨_, hb2, hb3⟩ := dropLeadingEmpty_some hb
        constructor
        · rw [List.head?_reverse, hb3, List.getLast?_reverse]
          exact ha2
        · rw [List.getLast?_reverse]
          exact hb2

lemma mapOpt_mem {α β : Type} {f : α → Option β} :
    ∀ {l : List α} {r : List β}, mapOpt f l = some r →
      ∀ b ∈ r, ∃ a ∈ l, f a = some b := by
  intro l
  induction l with
  | nil =>
    intro r h b hb
    unfold mapOpt at h
    injection h with h
    subst h
    exact absurd hb (by simp)
  | cons x xs ih =>
    intro r h b hb
    unfold mapOpt at h
    cases hfx : f x with
    | none => rw [hfx] at h; exact Option.noConfusion h
    | some y =>
      rw [hfx] at h
      cases hrest : mapOpt f xs with
      | none => rw [hrest] at h; exact Option.noConfusion h
      | some ys =>
        rw [hrest] at h
        injection h with h
        subst h
        rcases List.mem_cons.mp hb with hby | hbys
        · exact ⟨x, List.mem_cons_self x xs, by rw [hfx, hby]⟩
        · obtain ⟨a, hal, hfa⟩ := ih hrest b hbys
          exact ⟨a, List.mem_cons_of_mem x hal, hfa⟩

lemma stripSection_fields {a s : Section} (h : stripSection a = some s) :
    (∃ lic, strip a.licence = some lic ∧ s.licence = lic) ∧
    (∃ nts, strip a.notes = some nts ∧ s.notes = nts) := by
  unfold stripSection at h
  cases hl : strip a.licence with
  | none => rw [hl] at h; exact Option.noConfusion h
  | some lic =>
    rw [hl] at h
    cases hn : strip a.notes with
    | none => rw [hn] at h; exact Option.noConfusion h
    | some nts =>
      rw [hn] at h
      injection h with h
      subst h
      exact ⟨⟨lic, rfl, rfl⟩, ⟨nts, rfl, rfl⟩⟩

/-- The second list is the first with only an all-blank prefix and an
all-blank suffix removed: the ends are trimmed and every internal line,
empty ones included, is kept in place. -/
def TrimOnly (l r : List String) : Prop :=
  ∃ a b, l = a ++ r ++ b ∧ (∀ x ∈ a, x = "") ∧ (∀ x ∈ b, x = "")

lemma dropLeadingEmpty_split :
    ∀ {l m : List String}, dropLeadingEmpty l = some m →
      ∃ a, l = a ++ m ∧ ∀ x ∈ a, x = "" := by
  intro l
  induction l with
  | nil => intro m h; exact Option.noConfusion h
  | cons x xs ih =>
    intro m h
    unfold dropLeadingEmpty at h
    split at h
    · rename_i hx
      obtain ⟨a, ha1, ha2⟩ := ih h
      refine ⟨x :: a, by rw [List.cons_append, ha1], ?_⟩
      intro y hy
      rcases List.mem_cons.mp hy with h1 | h1
      · subst h1
        exact hx
      · exact ha2 y h1
    · injection h with h
      subst h
      exact ⟨[], rfl, by simp⟩

lemma strip_trimOnly :
    ∀ {l r : List String}, strip l = some r → TrimOnly l r := by
  intro l r h
  unfold strip at h
  split at h
  · injection h with h
    subst h
    exact ⟨[], [], by simp, by simp, by simp⟩
  · cases ha : dropLeadingEmpty l with
    | none => rw [ha] at h; exact Option.noConfusion h
    | some m =>
      rw [ha] at h
      dsimp only at h
      cases hb : dropLeadingEmpty m.reverse with
      | none => rw [hb] at h; exact Option.noConfusion h
      | some b =>
        rw [hb] at h
        injection h with h
        subst h
        obtain ⟨a, ha1, ha2⟩ := dropLeadingEmpty_split ha
        obtain ⟨c, hc1, hc2⟩ := dropLeadingEmpty_split hb
        refine ⟨a, c.reverse, ?_, ha2, ?_⟩
        · rw [ha1, List.append_assoc]
          congr 1
          rw [show m = (c ++ b).reverse from by
            rw [← hc1, List.reverse_reverse]]
          rw [List.reverse_append]
        · intro x hx
          exact hc2 x (List.mem_reverse.mp hx)

lemma mapOpt_forall₂ {α β : Type} {f : α → Option β} :
    ∀ {l : List α} {r : List β}, mapOpt f l = some r →
      List.Forall₂ (fun a b => f a = some b) l r := by
  intro l
  induction l with
  | nil =>
    intro r h
    unfold mapOpt at h
    injection h with h
    subst h
    exact List.Forall₂.nil
  | cons x xs ih =>
    intro r h
    unfold mapOpt at h
    cases hfx : f x with
    | none => rw [hfx] at h; exact Option.noConfusion h
    | some y =>
      rw [hfx] at h
      cases hrest : mapOpt f xs with
      | none => rw [hrest] at h; exact Option.noConfusion h
      | some ys =>
        rw [hrest] at h
        injection h with h
        subst h
        exact List.Forall₂.cons hfx (ih hrest)

/-- C3: after a successful parse the header and every section's notes and
licence lists never begin or end with an empty line, and the end-of-parse
trimming removes only an all-blank prefix and suffix from each of those
lists, preserving internal empty lines in place; in particular the manifest
whose header lines are `["", "Title", ""]` before the first delimiter parses
to the header `["Title"]`, and `["", "A", "", "B", ""]` parses to
`["A", "", "B"]`, the internal empty line kept. -/
theorem C3_no_empty_ends_after_parse :
    (∀ (lines : List String) (w : Whence), load_whence lines = Except.ok w →
        NoEmptyEnds w.header ∧
        ∀ s ∈ w.sections, NoEmptyEnds s.licence ∧ NoEmptyEnds s.notes) ∧
    (∀ (lines : List String) (st : PState) (w : Whence),
        processLines {} lines = Except.ok st →
        load_whence lines = Except.ok w →
        TrimOnly st.header w.header ∧
        List.Forall₂
          (fun a s => TrimOnly a.licence s.licence ∧
            TrimOnly a.notes s.notes) st.sections w.sections) ∧
    load_whence ["", "Title", "", "----------"] =
      Except.ok { header := ["Title"], sections := [{}] } ∧
    load_whence ["", "A", "", "B", "", "----------"] =
      Except.ok { header := ["A", "", "B"], sections := [{}] } := by
  refine ⟨?_, ?_, by rfl, by rfl⟩
  · intro lines w h
    unfold load_whence at h
    cases hp : processLines {} lines with
    | error e => rw [hp] at h; exact Except.noConfusion h
    | ok st =>
      rw [hp] at h
      dsimp only at h
      cases hs : strip st.header with
      | none => rw [hs] at h; exact Except.noConfusion h
      | some hh =>
        rw [hs] at h
        dsimp only at h
        cases hm : mapOpt stripSection st.sections with
        | none => rw [hm] at h; exact Except.noConfusion h
        | some ss =>
          rw [hm] at h
          injection h with h
          subst h
          constructor
          · exact strip_some_noEmptyEnds hs
          · intro s hsmem
            obtain ⟨a, _, ha⟩ := mapOpt_mem hm s hsmem
            obtain ⟨⟨lic, hlic, hsl⟩, ⟨nts, hnts, hsn⟩⟩ :=
              stripSection_fields ha
            rw [hsl, hsn]
            exact ⟨strip_some_noEmptyEnds hlic, strip_some_noEmptyEnds hnts⟩
  · intro lines st w hp hw
    unfold load_whence at hw
    rw [hp] at hw
    dsimp only at hw
    cases hs : strip st.header with
    | none => rw [hs] at hw; exact Except.noConfusion hw
    | some hh =>
      rw [hs] at hw
      dsimp only at hw
      cases hm : mapOpt stripSection st.sections with
      | none => rw [hm] at hw; exact Except.noConfusion hw
      | some ss =>
        rw [hm] at hw
        injection hw with hw
        subst hw
        refine ⟨strip_trimOnly hs, ?_⟩
        refine List.Forall₂.imp ?_ (mapOpt_forall₂ hm)
        intro a b hab
        obtain ⟨⟨lic, hlic, hbl⟩, ⟨nts, hnts, hbn⟩⟩ := stripSection_fields hab
        rw [hbl, hbn]
        exact ⟨strip_trimOnly hlic, strip_trimOnly hnts⟩

/-- Concrete instantiation of the two universal parts of the previous
theorem: the second instantiation exhibits an internal empty line that the
trimming keeps. -/
theorem C3_no_empty_ends_after_parse_witness :
    (NoEmptyEnds ({ header := ["Title"], sections := [{}] } : Whence).header ∧
      ∀ s ∈ ({ header := ["Title"], sections := [{}] } : Whence).sections,
        NoEmptyEnds s.licence ∧ NoEmptyEnds s.notes) ∧
    (TrimOnly (["", "A", "", "B", ""] : List String) ["A", "", "B"] ∧
      List.Forall₂
        (fun a s => TrimOnly a.licence s.licence ∧
          TrimOnly a.notes s.notes)
        [({} : Section)] [({} : Section)]) :=
  ⟨C3_no_empty_ends_after_parse.1 ["", "Title", "", "----------"] _ (by rfl),
   C3_no_empty_ends_after_parse.2.1 ["", "A", "", "B", "", "----------"]
     { header := ["", "A", "", "B", ""], sections := [{}],
       whence_type := WType.sec }
     { header := ["A", "", "B"], sections := [{}] } (by rfl) (by rfl)⟩

lemma processLines_append :
    ∀ (a b : List String) (st : PState),
      processLines st (a ++ b) =
        match processLines st a with
        | Except.error e => Except.error e
        | Except.ok st2 => processLines st2 b := by
  intro a
  induction a with
  | nil => intro b st; rfl
  | cons x xs ih =>
    intro b st
    simp only [List.cons_append, processLines]
    cases step st x with
    | error e => rfl
    | ok st2 => exact ih b st2

lemma step_blank_header {st : PState} {raw : String}
    (hwt : st.whence_type = WType.header) (hraw : pyRstrip raw = "") :
    step st raw = Except.ok { st with header := st.header ++ [""] } := by
  unfold step
  rw [hraw]
  unfold stepLine
  rw [if_neg (by decide)]
  have hsk : splitKey "" = none := rfl
  rw [hsk]
  unfold fallback
  rw [if_pos hwt]

lemma processLines_blank :
    ∀ (pre : List String) (st : PState), st.whence_type = WType.header →
      (∀ r ∈ pre, pyRstrip r = "") →
      processLines st pre =
        Except.ok { st with
          header := st.header ++ List.replicate pre.length "" } := by
  intro pre
  induction pre with
  | nil =>
    intro st _ _
    simp only [processLines, List.replicate, List.append_nil]
  | cons x xs ih =>
    intro st hwt hall
    have hx : pyRstrip x = "" := hall x (List.mem_cons_self x xs)
    unfold processLines
    rw [step_blank_header hwt hx]
    dsimp only
    rw [ih { st with header := st.header ++ [""] } hwt
      (fun r hr => hall r (List.mem_cons_of_mem x hr))]
    simp [List.replicate_succ]

lemma fallback_nonheader {st st2 : PState} {line : String}
    (hwt : st.whence_type ≠ WType.header)
    (h : fallback st line = Except.ok st2) :
    st2.whence_type ≠ WType.header ∧ st2.header = st.header := by
  unfold fallback at h
  repeat' split at h
  · exact absurd (by assumption) hwt
  · injection h with h
    subst h
    exact ⟨by simp, rfl⟩
  · injection h with h
    subst h
    exact ⟨hwt, rfl⟩
  · exact Except.noConfusion h
  · injection h with h
    subst h
    exact ⟨hwt, rfl⟩

lemma keyedAction_nonheader {key line val : String} {st st2 : PState}
    (hwt : st.whence_type ≠ WType.header)
    (h : keyedAction key line val st = Except.ok st2) :
    st2.whence_type ≠ WType.header ∧ st2.header = st.header := by
  unfold keyedAction at h
  repeat' split at h
  · exact ⟨by rw [(doDriver_pres h).2.2.2]; exact hwt, (doDriver_pres h).1⟩
  · exact ⟨by rw [(doFile_pres h).2.2.2]; exact hwt, (doFile_pres h).1⟩
  · exact ⟨by rw [(doVersion_pres h).2.2.2]; exact hwt, (doVersion_pres h).1⟩
  · exact ⟨by rw [(doLink_pres h).2.2.2]; exact hwt, (doLink_pres h).1⟩
  · exact ⟨by rw [(doSource_pres h).2.2.2]; exact hwt, (doSource_pres h).1⟩
  · exact ⟨by rw [(doInfo_pres h).2.2.2]; exact hwt, (doInfo_pres h).1⟩
  · exact ⟨by rw [(doOrigin_pres h).2.2.2]; exact hwt, (doOrigin_pres h).1⟩
  · exact ⟨by rw [(doLicence_pres h).2.2]; simp, (doLicence_pres h).1⟩
  · exact fallback_nonheader hwt h

lemma step_nonheader {st st2 : PState} {raw : String}
    (hwt : st.whence_type ≠ WType.header)
    (h : step st raw = Except.ok st2) :
    st2.whence_type ≠ WType.header ∧ st2.header = st.header := by
  unfold step stepLine at h
  split at h
  · injection h with h
    subst h
    exact ⟨by simp, rfl⟩
  · split at h
    · exact keyedAction_nonheader hwt h
    · exact fallback_nonheader hwt h

lemma processLines_nonheader :
    ∀ (ls : List String) (st : PState), st.whence_type ≠ WType.header →
      (∃ e, processLines st ls = Except.error e) ∨
      (∃ st2, processLines st ls = Except.ok st2 ∧ st2.header = st.header) := by
  intro ls
  induction ls with
  | nil => intro st _; exact Or.inr ⟨st, rfl, rfl⟩
  | cons x xs ih =>
    intro st hwt
    unfold processLines
    cases hs : step st x with
    | error e => exact Or.inl ⟨e, rfl⟩
    | ok st2 =>
      obtain ⟨h1, h2⟩ := step_nonheader hwt hs
      rcases ih st2 h1 with ⟨e, he⟩ | ⟨st3, h3, h4⟩
      · exact Or.inl ⟨e, he⟩
      · exact Or.inr ⟨st3, h3, by rw [h4, h2]⟩

lemma dropLeadingEmpty_all_blank :
    ∀ (l : List String), (∀ x ∈ l, x = "") → dropLeadingEmpty l = none := by
  intro l
  induction l with
  | nil => intro _; rfl
  | cons x xs ih =>
    intro h
    unfold dropLeadingEmpty
    rw [if_pos (h x (List.mem_cons_self x xs))]
    exact ih (fun r hr => h r (List.mem_cons_of_mem x hr))

lemma strip_all_blank {l : List String} (h1 : l ≠ [])
    (h2 : ∀ x ∈ l, x = "") : strip l = none := by
  unfold strip
  rw [if_neg h1, dropLeadingEmpty_all_blank l h2]

lemma dropWhile_head_false {α : Type} {p : α → Bool} :
    ∀ (l : List α) {d : α} {r : List α},
      l.dropWhile p = d :: r → p d = false := by
  intro l
  induction l with
  | nil => intro d r h; exact List.noConfusion h
  | cons x xs ih =>
    intro d r h
    rw [List.dropWhile_cons] at h
    by_cases hp : p x
    · rw [if_pos hp] at h
      exact ih h
    · rw [if_neg hp] at h
      injection h with h1 _
      subst h1
      simp at hp
      exact hp

lemma load_whence_blank_pre (pre rest : List String) (hne : pre ≠ [])
    (hblank : ∀ r ∈ pre, pyRstrip r = "")
    (hrest : rest = [] ∨
      ∃ d rest2, rest = d :: rest2 ∧ isDelim (pyRstrip d) = true) :
    ∃ e, load_whence (pre ++ rest) = Except.error e := by
  have hpre1 : processLines ({} : PState) pre =
      Except.ok { header := List.replicate pre.length "" } := by
    rw [processLines_blank pre {} rfl hblank]
    rfl
  have hhdr_ne : (List.replicate pre.length "" : List String) ≠ [] := by
    intro hcon
    rw [List.replicate_eq_nil_iff, List.length_eq_zero] at hcon
    exact hne hcon
  have hhdr_blank : ∀ x ∈ (List.replicate pre.length "" : List String),
      x = "" := fun x hx => List.eq_of_mem_replicate hx
  unfold load_whence
  rw [processLines_append, hpre1]
  dsimp only
  rcases hrest with hr | ⟨d, rest2, hr, hd⟩
  · subst hr
    unfold processLines
    dsimp only
    rw [strip_all_blank hhdr_ne hhdr_blank]
    exact ⟨PErr.stripIndexError, rfl⟩
  · subst hr
    have hstepd : step { header := List.replicate pre.length "" } d =
        Except.ok
          { header := List.replicate pre.length "",
            sections := [{}], whence_type := WType.sec } := by
      unfold step stepLine
      rw [if_pos hd]
      rfl
    unfold processLines
    rw [hstepd]
    dsimp only
    rcases processLines_nonheader rest2
        { header := List.replicate pre.length "",
            sections := [{}], whence_type := WType.sec }
        (by intro hx; exact WType.noConfusion hx) with ⟨e, he⟩ | ⟨stF, hF, hFh⟩
    · rw [he]
      exact ⟨e, rfl⟩
    · rw [hF]
      dsimp only
      rw [hFh]
      dsimp only
      rw [strip_all_blank hhdr_ne hhdr_blank]
      exact ⟨PErr.stripIndexError, rfl⟩

/-- C4: when every line before the first dashed delimiter is blank (and there
is at least one such line), `load_whence` never returns a document: the
trimming helper `strip` pops the front of the all-blank header without
re-checking emptiness, so the parse fails; on a file of blank lines the
failure is exactly the index-out-of-bounds error from `strip`. -/
theorem C4_blank_header_parse_fails :
    (∀ lines : List String,
        lines.takeWhile (fun r => !isDelim (pyRstrip r)) ≠ [] →
        (∀ r ∈ lines.takeWhile (fun r => !isDelim (pyRstrip r)),
          pyRstrip r = "") →
        ∃ e, load_whence lines = Except.error e) ∧
    load_whence ["", "", ""] = Except.error PErr.stripIndexError := by
  constructor
  · intro lines hne hblank
    have hsplit : lines =
        lines.takeWhile (fun r => !isDelim (pyRstrip r)) ++
          lines.dropWhile (fun r => !isDelim (pyRstrip r)) :=
      (List.takeWhile_append_dropWhile (fun r => !isDelim (pyRstrip r))
        lines).symm
    rw [hsplit]
    apply load_whence_blank_pre _ _ hne hblank
    cases hr : lines.dropWhile (fun r => !isDelim (pyRstrip r)) with
    | nil => exact Or.inl rfl
    | cons d rest2 =>
      refine Or.inr ⟨d, rest2, rfl, ?_⟩
      have hd := dropWhile_head_false lines hr
      simp at hd
      exact hd
  · rfl

/-- Concrete instantiation of the universal part of the previous theorem. -/
theorem C4_blank_header_parse_fails_witness :
    ∃ e, load_whence [""] = Except.error e :=
  C4_blank_header_parse_fails.1 [""] (by decide) (by decide)

/-- The module the claim predicts for a Driver value: the token before the
first whitespace run. -/
def claimDriverModule (val : String) : String :=
  ⟨val.data.takeWhile (fun c => !isPySpace c)⟩

/-- The description the claim predicts for a Driver value: the remainder
after the first whitespace run, with only leading space and dash characters
trimmed. -/
def claimDriverDesc (val : String) : String :=
  ⟨((val.data.dropWhile (fun c => !isPySpace c)).dropWhile
      isPySpace).dropWhile (fun c => c = ' ' || c = '-')⟩

/-- C5 counterexample: the code differs from the claim on two points.  On
`Driver: m d-` the code's `strip(" -")` also removes the trailing dash, so
the description is `"d"` where the claim predicts `"d-"`; and on a value
containing a tab before the first space (`Driver: a\tb c`) the code splits on
the first space character, not on the first whitespace run, so the module is
`"a\tb"` where the claim predicts `"a"`. -/
theorem C5_driver_split_counterexample :
    load_whence ["----------", "Driver: m d-"] =
      Except.ok
        { sections := [{ driver := "m d-", module := "m",
                         description := "d" }] } ∧
    claimDriverDesc "m d-" = "d-" ∧
    ("d" : String) ≠ "d-" ∧
    load_whence ["----------", "Driver: a\tb c"] =
      Except.ok
        { sections := [{ driver := "a\tb c", module := "a\tb",
                         description := "c" }] } ∧
    claimDriverModule "a\tb c" = "a" ∧
    ("a\tb" : String) ≠ "a" := by
  refine ⟨by rfl, by rfl, by decide, by rfl, by rfl, by decide⟩

/-- C5 (amended): a `Driver: <value>` line sets the current section's driver
to the full value; if the value contains a space character it is split at the
first space, the module being the part before it and the description the
remainder with space and dash characters trimmed from BOTH ends; if the value
contains no space character the module is the whole value and the description
is empty.  In particular `Driver: rtlwifi - Realtek wifi driver` yields
module `rtlwifi` and description `Realtek wifi driver`. -/
theorem C5_driver_split_amended :
    (∀ (line val : String),
        isDelim (pyRstrip line) = false →
        splitKey (pyRstrip line) = some ("Driver", val) →
        load_whence ["----------", line] =
          Except.ok
            { sections :=
                [{ driver := val,
                   module :=
                     match splitFirstSpace val.data with
                     | some p => String.mk p.1
                     | none => val,
                   description :=
                     match splitFirstSpace val.data with
                     | some p => pyStripChars [' ', '-'] ⟨p.2⟩
                     | none => "" }] }) ∧
    load_whence ["----------", "Driver: rtlwifi - Realtek wifi driver"] =
      Except.ok
        { sections :=
            [{ driver := "rtlwifi - Realtek wifi driver",
               module := "rtlwifi",
               description := "Realtek wifi driver" }] } := by
  constructor
  · intro line val hnd hsk
    unfold load_whence processLines
    rw [show step ({} : PState) "----------" =
        Except.ok ({ sections := [{}], whence_type := WType.sec } : PState)
      from rfl]
    dsimp only
    unfold processLines
    unfold step stepLine
    rw [hnd]
    rw [if_neg (by simp)]
    rw [hsk]
    dsimp only
    unfold keyedAction
    rw [if_pos rfl]
    unfold doDriver
    rw [if_neg (by simp)]
    cases hsp : splitFirstSpace val.data with
    | none => rfl
    | some p => rfl
  · rfl

/-- Concrete instantiation of the universal part of the previous theorem. -/
theorem C5_driver_split_amended_witness :
    load_whence ["----------", "Driver: rtl - wifi"] =
      Except.ok
        { sections :=
            [{ driver := "rtl - wifi",
               module :=
                 match splitFirstSpace "rtl - wifi".data with
                 | some p => String.mk p.1
                 | none => "rtl - wifi",
               description :=
                 match splitFirstSpace "rtl - wifi".data with
                 | some p => pyStripChars [' ', '-'] ⟨p.2⟩
                 | none => "" }] } :=
  C5_driver_split_amended.1 "Driver: rtl - wifi" "rtl - wifi"
    (by decide) (by rfl)

lemma hasPref_append : ∀ {p l : List Char}, hasPref p l = true →
    l = p ++ l.drop p.length := by
  intro p
  induction p with
  | nil => intro l _; rfl
  | cons a as ih =>
    intro l h
    cases l with
    | nil => exact Bool.noConfusion h
    | cons b bs =>
      unfold hasPref at h
      rw [Bool.and_eq_true] at h
      obtain ⟨h1, h2⟩ := h
      rw [decide_eq_true_eq] at h1
      subst h1
      simp only [List.cons_append, List.length_cons, List.drop_succ_cons]
      rw [← ih h2]

lemma findSub_split {pat : List Char} :
    ∀ {l a b : List Char}, findSub pat l = some (a, b) →
      l = a ++ pat ++ b := by
  intro l
  induction l with
  | nil =>
    intro a b h
    unfold findSub at h
    split at h
    · rename_i hp
      injection h with h
      injection h with h1 h2
      subst h1
      subst h2
      have hp2 := hasPref_append hp
      rw [List.drop_nil, List.append_nil] at hp2
      rw [← hp2]
      rfl
    · exact Option.noConfusion h
  | cons c cs ih =>
    intro a b h
    unfold findSub at h
    split at h
    · rename_i hp
      injection h with h
      injection h with h1 h2
      subst h1
      subst h2
      simpa using hasPref_append hp
    · rename_i hp
      cases hf : findSub pat cs with
      | none => rw [hf] at h; exact Option.noConfusion h
      | some q =>
        rw [hf] at h
        obtain ⟨q1, q2⟩ := q
        injection h with h
        injection h with h1 h2
        subst h1
        subst h2
        have hcs := ih hf
        simp only [List.cons_append]
        rw [← hcs]

lemma pyStrip_getLast_not_space {x : String} {c : Char}
    (h : (pyStrip x).data.getLast? = some c) : isPySpace c = false := by
  unfold pyStrip at h
  rw [show (String.mk
      (((x.data.dropWhile isPySpace).reverse.dropWhile isPySpace)).reverse).data
      = (((x.data.dropWhile isPySpace).reverse.dropWhile
          isPySpace)).reverse from rfl] at h
  rw [List.getLast?_reverse] at h
  cases hcase : (x.data.dropWhile isPySpace).reverse.dropWhile isPySpace with
  | nil => rw [hcase] at h; exact Option.noConfusion h
  | cons a as =>
    rw [hcase] at h
    injection h with h
    subst h
    exact dropWhile_head_false _ hcase

lemma stripped_arrow_target (x : String) :
    (pyPartitionArrow (pyStrip x)).2 ≠ "" ↔
      hasSub " -> " (pyStrip x) = true := by
  unfold pyPartitionArrow hasSub
  cases hf : findSub " -> ".data (pyStrip x).data with
  | none => simp
  | some p =>
    simp only [Option.isSome_some]
    constructor
    · intro _
      trivial
    · intro _
      obtain ⟨a, b⟩ := p
      dsimp only
      intro hb
      have hbnil : b = [] := congrArg String.data hb
      subst hbnil
      have hsplit := findSub_split hf
      rw [List.append_nil] at hsplit
      have hlast : (pyStrip x).data.getLast? = some ' ' := by
        rw [hsplit, List.getLast?_append]
        rfl
      have := pyStrip_getLast_not_space hlast
      exact Bool.noConfusion this

lemma splitKey_val_stripped {raw key val : String}
    (h : splitKey raw = some (key, val)) : ∃ x, val = pyStrip x := by
  unfold splitKey at h
  cases hc : splitColon raw.data with
  | none => rw [hc] at h; exact Option.noConfusion h
  | some p =>
    rw [hc] at h
    injection h with h
    injection h with h1 h2
    exact ⟨⟨p.2⟩, h2.symm⟩

/-- C6 counterexample: on the line `Link: -> b` the parsed Link entry has an
empty target although the source line does contain the separator `" -> "`
(the separator is lost when the value after the colon is whitespace-stripped
to `"-> b"`), so "target is non-empty whenever the source line contained
`\" -> \"`" fails. -/
theorem C6_link_target_counterexample :
    load_whence ["----------", "Link: -> b"] =
      Except.ok
        { sections := [{ entries :=
            [{ type := "Link", path := "-> b", target := "" }] }] } ∧
    hasSub " -> " "Link: -> b" = true :=
  ⟨by rfl, by rfl⟩

/-- C6 (amended): a `Link: <value>` line splits the whitespace-stripped value
after the colon on the first occurrence of `" -> "` into the path and target
of a new Link entry appended to the current section; the target is non-empty
if and only if that stripped value contains `" -> "` (the raw line may
contain the separator even when the stripped value does not), and when it
does not, the path keeps the whole unsplit value.  `Link: foo.bin ->
bar.bin` yields path `foo.bin`, target `bar.bin`; `Link: foo.bin` yields
path `foo.bin`, empty target. -/
theorem C6_link_target_amended :
    (∀ (raw key val : String), splitKey raw = some (key, val) →
        ((pyPartitionArrow val).2 ≠ "" ↔ hasSub " -> " val = true)) ∧
    (∀ val : String, hasSub " -> " val = false →
        pyPartitionArrow val = (val, "")) ∧
    load_whence ["----------", "Link: foo.bin -> bar.bin", "Link: foo.bin"] =
      Except.ok
        { sections := [{ entries :=
            [{ type := "Link", path := "foo.bin", target := "bar.bin" },
             { type := "Link", path := "foo.bin", target := "" }] }] } := by
  refine ⟨?_, ?_, by rfl⟩
  · intro raw key val h
    obtain ⟨x, hx⟩ := splitKey_val_stripped h
    subst hx
    exact stripped_arrow_target x
  · intro val h
    unfold hasSub at h
    unfold pyPartitionArrow
    cases hf : findSub " -> ".data val.data with
    | none => rfl
    | some p => rw [hf] at h; exact Bool.noConfusion h

/-- Concrete instantiation of the first part of the previous theorem. -/
theorem C6_link_target_amended_witness :
    (pyPartitionArrow "a -> b").2 ≠ "" ↔ hasSub " -> " "a -> b" = true :=
  C6_link_target_amended.1 "Link: a -> b" "Link" "a -> b" (by rfl)

lemma modLast_getLast? :
    ∀ (ss : List Section) (f : Section → Section),
      (modLast ss f).getLast? = (ss.getLast?).map f := by
  intro ss
  induction ss with
  | nil => intro f; rfl
  | cons s rest ih =>
    intro f
    cases rest with
    | nil => rfl
    | cons t ts =>
      have h1 : modLast (s :: t :: ts) f = s :: modLast (t :: ts) f := rfl
      rw [h1]
      have h2 : ∃ u us, modLast (t :: ts) f = u :: us := by
        cases ts with
        | nil => exact ⟨f t, [], rfl⟩
        | cons v vs => exact ⟨t, modLast (v :: vs) f, rfl⟩
      obtain ⟨u, us, h2⟩ := h2
      rw [h2, List.getLast?_cons_cons, ← h2, ih, List.getLast?_cons_cons]

lemma getLast?_some_of_ne_nil :
    ∀ {ss : List Section}, ss ≠ [] → ∃ s, ss.getLast? = some s := by
  intro ss
  induction ss with
  | nil => intro h; exact absurd rfl h
  | cons s rest ih =>
    intro _
    cases rest with
    | nil => exact ⟨s, rfl⟩
    | cons t ts =>
      obtain ⟨u, hu⟩ := ih (by simp)
      exact ⟨u, by rw [List.getLast?_cons_cons]; exact hu⟩

/-- C7: a `Licence:`/`License:` line moves the parser to the LICENCE state
and appends the stripped value (or the placeholder `--` when it is empty) to
the current section's licence list; the licence-file pattern is searched on
the whole original line and, when found, stored in `licence_file` (otherwise
`licence_file` is untouched); any line no recognizer matched is, in the
LICENCE state, appended verbatim to the licence list; and the two-line
example from the specification produces exactly the claimed section. -/
theorem C7_licence_rule :
    (∀ (line val : String) (st st2 : PState),
        doLicence line val st = Except.ok st2 →
        st2.whence_type = WType.licence ∧
        st2.sections.getLast?.map Section.licence =
          st.sections.getLast?.map
            (fun s => s.licence ++ [if val = "" then "--" else val]) ∧
        (∀ f, licenceSearch line = some f →
          st2.sections.getLast?.map Section.licence_file = some f) ∧
        (licenceSearch line = none →
          st2.sections.getLast?.map Section.licence_file =
            st.sections.getLast?.map Section.licence_file)) ∧
    (∀ (st : PState) (line : String), st.whence_type = WType.licence →
        fallback st line =
          Except.ok
            { st with
              sections := modLast st.sections
                (fun s => { s with licence := s.licence ++ [line] }) }) ∧
    load_whence
      ["----------",
       "Licence: Redistributable. See LICENCE.foo for details.",
       "Some additional note."] =
      Except.ok
        { sections :=
            [{ licence :=
                 ["Redistributable. See LICENCE.foo for details.",
                  "Some additional note."],
               licence_file := "LICENCE.foo" }] } := by
  refine ⟨?_, ?_, by rfl⟩
  · intro line val st st2 h
    unfold doLicence at h
    split at h
    · exact Except.noConfusion h
    · rename_i hne
      injection h with h
      subst h
      obtain ⟨s, hs⟩ := getLast?_some_of_ne_nil hne
      refine ⟨rfl, ?_, ?_, ?_⟩
      · dsimp only
        rw [modLast_getLast?, hs]
        rfl
      · intro f hf
        dsimp only
        rw [modLast_getLast?, hs]
        dsimp only [Option.map_some']
        rw [hf]
      · intro hf
        dsimp only
        rw [modLast_getLast?, hs]
        dsimp only [Option.map_some']
        rw [hf]
  · intro st line hwt
    unfold fallback
    rw [hwt]
    rfl

/-- Concrete instantiation of the first two parts of the previous theorem. -/
theorem C7_licence_rule_witness :
    (({ sections := [{ licence := ["--"] }],
        whence_type := WType.licence } : PState).whence_type =
          WType.licence ∧
      ({ sections := [{ licence := ["--"] }],
         whence_type := WType.licence } : PState).sections.getLast?.map
          Section.licence =
        ({ sections := [({} : Section)] } : PState).sections.getLast?.map
          (fun s => s.licence ++ [if ("" : String) = "" then "--" else ""]) ∧
      (∀ f, licenceSearch "Licence:" = some f →
        ({ sections := [{ licence := ["--"] }],
           whence_type := WType.licence } : PState).sections.getLast?.map
            Section.licence_file = some f) ∧
      (licenceSearch "Licence:" = none →
        ({ sections := [{ licence := ["--"] }],
           whence_type := WType.licence } : PState).sections.getLast?.map
            Section.licence_file =
          ({ sections := [({} : Section)] } : PState).sections.getLast?.map
            Section.licence_file)) :=
  C7_licence_rule.1 "Licence:" "" { sections := [({} : Section)] }
    { sections := [{ licence := ["--"] }],
      whence_type := WType.licence } (by rfl)

/-- Keyed line whose recognizer dereferences the current entry. -/
def needsEntryLine (raw : String) : Bool :=
  !isDelim (pyRstrip raw) &&
    (match splitKey (pyRstrip raw) with
     | some kv => kv.1 = "Version" || kv.1 = "Source" ||
         kv.1 = "Info" || kv.1 = "Origin"
     | none => false)

/-- Keyed line whose recognizer establishes a new current entry. -/
def entryLine (raw : String) : Bool :=
  !isDelim (pyRstrip raw) &&
    (match splitKey (pyRstrip raw) with
     | some kv => kv.1 = "File" || kv.1 = "RawFile" || kv.1 = "Link"
     | none => false)

lemma fallback_cur {st st2 : PState} {line : String}
    (h : fallback st line = Except.ok st2) : st2.cur_entry = st.cur_entry := by
  unfold fallback at h
  repeat' split at h
  · injection h with h; subst h; rfl
  · injection h with h; subst h; rfl
  · injection h with h; subst h; rfl
  · exact Except.noConfusion h
  · injection h with h; subst h; rfl

lemma doDriver_cur {line val : String} {st st2 : PState}
    (h : doDriver line val st = Except.ok st2) :
    st2.cur_entry = st.cur_entry := by
  unfold doDriver at h
  split at h
  · exact Except.noConfusion h
  · split at h <;> (injection h with h; subst h; rfl)

lemma doVersion_cur {line val : String} {st st2 : PState}
    (h : doVersion line val st = Except.ok st2) :
    st2.cur_entry = st.cur_entry := by
  unfold doVersion at h
  split at h
  · exact Except.noConfusion h
  · injection h with h; subst h; rfl

lemma doSource_cur {line val : String} {st st2 : PState}
    (h : doSource line val st = Except.ok st2) :
    st2.cur_entry = st.cur_entry := by
  unfold doSource at h
  split at h
  · exact Except.noConfusion h
  · injection h with h; subst h; rfl

lemma doInfo_cur {line val : String} {st st2 : PState}
    (h : doInfo line val st = Except.ok st2) :
    st2.cur_entry = st.cur_entry := by
  unfold doInfo at h
  split at h
  · exact Except.noConfusion h
  · injection h with h; subst h; rfl

lemma doOrigin_cur {line val : String} {st st2 : PState}
    (h : doOrigin line val st = Except.ok st2) :
    st2.cur_entry = st.cur_entry := by
  unfold doOrigin at h
  split at h
  · exact Except.noConfusion h
  · injection h with h; subst h; rfl

lemma doLicence_cur {line val : String} {st st2 : PState}
    (h : doLicence line val st = Except.ok st2) :
    st2.cur_entry = st.cur_entry := by
  unfold doLicence at h
  split at h
  · exact Except.noConfusion h
  · injection h with h; subst h; rfl

lemma step_cur_or {st st2 : PState} {raw : String}
    (h : step st raw = Except.ok st2) :
    st2.cur_entry = st.cur_entry ∨ entryLine raw = true := by
  unfold step stepLine at h
  split at h
  · injection h with h
    subst h
    exact Or.inl rfl
  · rename_i hnd
    have hndF : isDelim (pyRstrip raw) = false := by
      cases hcd : isDelim (pyRstrip raw) with
      | true => exact absurd hcd hnd
      | false => rfl
    cases hsk : splitKey (pyRstrip raw) with
    | none =>
      rw [hsk] at h
      exact Or.inl (fallback_cur h)
    | some kv =>
      rw [hsk] at h
      dsimp only at h
      unfold keyedAction at h
      repeat' split at h
      · exact Or.inl (doDriver_cur h)
      · rename_i hkey
        refine Or.inr ?_
        rcases hkey with hk | hk <;> simp [entryLine, hsk, hndF, hk]
      · exact Or.inl (doVersion_cur h)
      · rename_i hkey
        refine Or.inr ?_
        simp [entryLine, hsk, hndF, hkey]
      · exact Or.inl (doSource_cur h)
      · exact Or.inl (doInfo_cur h)
      · exact Or.inl (doOrigin_cur h)
      · exact Or.inl (doLicence_cur h)
      · exact Or.inl (fallback_cur h)

lemma step_needsEntry_none {st : PState} {raw : String}
    (hneeds : needsEntryLine raw = true) (hcur : st.cur_entry = none) :
    step st raw = Except.error (PErr.noEntry (pyRstrip raw)) := by
  unfold needsEntryLine at hneeds
  rw [Bool.and_eq_true] at hneeds
  obtain ⟨hnd, hkey⟩ := hneeds
  have hndF : isDelim (pyRstrip raw) = false := by
    cases hcd : isDelim (pyRstrip raw) with
    | true => rw [hcd] at hnd; exact Bool.noConfusion hnd
    | false => rfl
  cases hsk : splitKey (pyRstrip raw) with
  | none => rw [hsk] at hkey; exact Bool.noConfusion hkey
  | some kv =>
    rw [hsk] at hkey
    dsimp only at hkey
    unfold step stepLine
    rw [if_neg (by rw [hndF]; exact Bool.noConfusion)]
    rw [hsk]
    dsimp only
    simp only [Bool.or_eq_true, decide_eq_true_eq] at hkey
    rcases hkey with ((hk | hk) | hk) | hk
    · rw [hk]
      show doVersion (pyRstrip raw) kv.2 st =
        Except.error (PErr.noEntry (pyRstrip raw))
      unfold doVersion
      rw [hcur]
    · rw [hk]
      show doSource (pyRstrip raw) kv.2 st =
        Except.error (PErr.noEntry (pyRstrip raw))
      unfold doSource
      rw [hcur]
    · rw [hk]
      show doInfo (pyRstrip raw) kv.2 st =
        Except.error (PErr.noEntry (pyRstrip raw))
      unfold doInfo
      rw [hcur]
    · rw [hk]
      show doOrigin (pyRstrip raw) kv.2 st =
        Except.error (PErr.noEntry (pyRstrip raw))
      unfold doOrigin
      rw [hcur]

lemma processLines_needsEntry :
    ∀ (lines : List String) (i : Nat) (raw : String) (st : PState),
      st.cur_entry = none →
      lines.get? i = some raw →
      needsEntryLine raw = true →
      (∀ (j : Nat) (r : String), j < i → lines.get? j = some r →
        entryLine r = false) →
      ∃ e, processLines st lines = Except.error e := by
  intro lines
  induction lines with
  | nil =>
    intro i raw st _ hget _ _
    rw [show (([] : List String).get? i) = none from by simp] at hget
    exact Option.noConfusion hget
  | cons x xs ih =>
    intro i raw st hcur hget hneeds hprev
    cases i with
    | zero =>
      have hx : x = raw := by
        rw [show ((x :: xs).get? 0) = some x from rfl] at hget
        injection hget
      subst hx
      unfold processLines
      rw [step_needsEntry_none hneeds hcur]
      exact ⟨PErr.noEntry (pyRstrip x), rfl⟩
    | succ n =>
      have hx : entryLine x = false := hprev 0 x (Nat.succ_pos n) rfl
      unfold processLines
      cases hs : step st x with
      | error e => exact ⟨e, rfl⟩
      | ok st2 =>
        have hcur2 : st2.cur_entry = none := by
          rcases step_cur_or hs with hsame | htrue
          · rw [hsame, hcur]
          · rw [htrue] at hx
            exact Bool.noConfusion hx
        exact ih n raw st2 hcur2 hget hneeds
          (fun j r hj hg => hprev (j + 1) r (Nat.succ_lt_succ hj) hg)

/-- C8: a `Version:`, `Source:`, `Info:` or `Origin:` keyed line appearing
before any `File:`/`RawFile:`/`Link:` line has established a current entry
makes the parse fail (the code dereferences the unbound `entry` local), never
inventing a default entry or silently dropping the line. -/
theorem C8_needs_entry_before_any_entry_fails :
    ∀ (lines : List String) (i : Nat) (raw : String),
      lines.get? i = some raw →
      needsEntryLine raw = true →
      (∀ (j : Nat) (r : String), j < i → lines.get? j = some r →
        entryLine r = false) →
      ∃ e, load_whence lines = Except.error e := by
  intro lines i raw hget hneeds hprev
  obtain ⟨e, he⟩ := processLines_needsEntry lines i raw {} rfl hget hneeds hprev
  refine ⟨e, ?_⟩
  unfold load_whence
  rw [he]

/-- Concrete instantiation of the previous theorem. -/
theorem C8_needs_entry_before_any_entry_fails_witness :
    ∃ e, load_whence ["Version: 1"] = Except.error e :=
  C8_needs_entry_before_any_entry_fails ["Version: 1"] 0 "Version: 1" rfl
    (by decide) (fun j r hj _ => absurd hj (Nat.not_lt_zero j))

/-- The kind of entry a line creates, when it creates one: its key. -/
def entryKey (raw : String) : Option String :=
  if isDelim (pyRstrip raw) then none
  else
    match splitKey (pyRstrip raw) with
    | some kv =>
      if kv.1 = "File" || kv.1 = "RawFile" || kv.1 = "Link" then some kv.1
      else none
    | none => none

/-- Add one to the last counter of a list. -/
def incLast : List Nat → List Nat
  | [] => []
  | [n] => [n + 1]
  | n :: rest => n :: incLast rest

/-- Append an element to the last list of a list of lists. -/
def appLast {α : Type} : List (List α) → α → List (List α)
  | [], _ => []
  | [l], x => [l ++ [x]]
  | l :: rest, x => l :: appLast rest x

/-- One input line's effect on the per-section expected entry-kind lists. -/
def kindsStep (acc : List (List String)) (raw : String) : List (List String) :=
  if isDelim (pyRstrip raw) then acc ++ [[]]
  else
    match entryKey raw with
    | some k => appLast acc k
    | none => acc

/-- One input line's effect on the per-section expected entry counts. -/
def countsStep (acc : List Nat) (raw : String) : List Nat :=
  if isDelim (pyRstrip raw) then acc ++ [0]
  else if entryLine raw then incLast acc else acc

/-- Per-section entry-kind sequences, computed from the input lines alone. -/
def entryKinds (lines : List String) : List (List String) :=
  lines.foldl kindsStep []

/-- Per-section entry counts, computed from the input lines alone. -/
def entryCounts (lines : List String) : List Nat :=
  lines.foldl countsStep []

/-- Projection a section to the kinds of its entries, in order. -/
def sectionKinds (s : Section) : List String :=
  s.entries.map Entry.type

lemma modLast_map_app (x : String) :
    ∀ (ss : List Section) (f : Section → Section),
      (∀ s, sectionKinds (f s) = sectionKinds s ++ [x]) →
      (modLast ss f).map sectionKinds = appLast (ss.map sectionKinds) x := by
  intro ss
  induction ss with
  | nil => intro f _; rfl
  | cons s rest ih =>
    intro f hf
    cases rest with
    | nil => simp [modLast, appLast, hf]
    | cons t ts =>
      show sectionKinds s :: (modLast (t :: ts) f).map sectionKinds =
        appLast (sectionKinds s :: (t :: ts).map sectionKinds) x
      rw [ih f hf]
      rfl

lemma modEntry_kinds {f : Entry → Entry} (hf : ∀ e, (f e).type = e.type) :
    ∀ (ss : List Section) (i j : Nat),
      (modEntry ss i j f).map sectionKinds = ss.map sectionKinds := by
  intro ss i j
  unfold modEntry
  split
  · rfl
  · rename_i s hs
    split
    · rfl
    · rename_i e he
      refine map_set_invariant sectionKinds ss i _ s hs ?_
      show (s.entries.set j (f e)).map Entry.type = s.entries.map Entry.type
      exact map_set_invariant Entry.type s.entries j (f e) e he (hf e)

lemma fallback_kinds {st st2 : PState} {line : String}
    (h : fallback st line = Except.ok st2) :
    st2.sections.map sectionKinds = st.sections.map sectionKinds := by
  unfold fallback at h
  repeat' split at h
  · injection h with h; subst h; rfl
  · injection h with h
    subst h
    exact modLast_map sectionKinds _ _ (fun s => rfl)
  · injection h with h
    subst h
    exact modLast_map sectionKinds _ _ (fun s => rfl)
  · exact Except.noConfusion h
  · injection h with h; subst h; rfl

lemma entryKey_none_of_noKey {raw : String}
    (hndF : isDelim (pyRstrip raw) = false)
    (hsk : splitKey (pyRstrip raw) = none) : entryKey raw = none := by
  unfold entryKey
  rw [hndF]
  rw [if_neg (by decide)]
  rw [hsk]

lemma entryKey_none {raw : String} {kv : String × String}
    (hndF : isDelim (pyRstrip raw) = false)
    (hsk : splitKey (pyRstrip raw) = some kv)
    (hc : (decide (kv.1 = "File") || decide (kv.1 = "RawFile") ||
      decide (kv.1 = "Link")) = false) :
    entryKey raw = none := by
  unfold entryKey
  rw [hndF]
  rw [if_neg (by decide)]
  rw [hsk]
  dsimp only
  rw [hc]
  rw [if_neg (by decide)]

lemma entryKey_some {raw : String} {kv : String × String}
    (hndF : isDelim (pyRstrip raw) = false)
    (hsk : splitKey (pyRstrip raw) = some kv)
    (hc : (decide (kv.1 = "File") || decide (kv.1 = "RawFile") ||
      decide (kv.1 = "Link")) = true) :
    entryKey raw = some kv.1 := by
  unfold entryKey
  rw [hndF]
  rw [if_neg (by decide)]
  rw [hsk]
  dsimp only
  rw [hc]
  rw [if_pos rfl]

lemma step_kinds {st st2 : PState} {raw : String}
    (h : step st raw = Except.ok st2) :
    st2.sections.map sectionKinds =
      kindsStep (st.sections.map sectionKinds) raw := by
  unfold step stepLine at h
  unfold kindsStep
  split at h
  · rename_i hd
    rw [if_pos hd]
    injection h with h
    subst h
    simp [sectionKinds]
  · rename_i hnd
    have hndF : isDelim (pyRstrip raw) = false := by
      cases hcd : isDelim (pyRstrip raw) with
      | true => exact absurd hcd hnd
      | false => rfl
    rw [if_neg hnd]
    cases hsk : splitKey (pyRstrip raw) with
    | none =>
      rw [hsk] at h
      dsimp only at h
      rw [entryKey_none_of_noKey hndF hsk]
      dsimp only
      exact fallback_kinds h
    | some kv =>
      rw [hsk] at h
      dsimp only at h
      unfold keyedAction at h
      repeat' split at h
      · rename_i hk
        rw [entryKey_none hndF hsk (by rw [hk]; rfl)]
        dsimp only
        unfold doDriver at h
        split at h
        · exact Except.noConfusion h
        · split at h <;>
          · injection h with h
            subst h
            exact modLast_map sectionKinds _ _ (fun s => rfl)
      · rename_i hk
        have hc : (decide (kv.1 = "File") || decide (kv.1 = "RawFile") ||
            decide (kv.1 = "Link")) = true := by
          rcases hk with hk2 | hk2 <;> rw [hk2] <;> rfl
        rw [entryKey_some hndF hsk hc]
        dsimp only
        unfold doFile at h
        split at h
        · exact Except.noConfusion h
        · injection h with h
          subst h
          refine modLast_map_app kv.1 _ _ (fun s => ?_)
          show (s.entries ++ [({ type := kv.1, path := kv.2 } : Entry)]).map
              Entry.type = s.entries.map Entry.type ++ [kv.1]
          simp
      · rename_i hk
        rw [entryKey_none hndF hsk (by rw [hk]; rfl)]
        dsimp only
        unfold doVersion at h
        split at h
        · exact Except.noConfusion h
        · injection h with h
          subst h
          exact @modEntry_kinds
            (fun e => { e with version := kv.2 }) (fun e => rfl)
            st.sections _ _
      · rename_i hk
        rw [entryKey_some hndF hsk (by rw [hk]; rfl)]
        dsimp only
        unfold doLink at h
        split at h
        · exact Except.noConfusion h
        · injection h with h
          subst h
          rw [hk]
          refine modLast_map_app "Link" _ _ (fun s => ?_)
          show (s.entries ++
              [({ type := "Link", path := (pyPartitionArrow kv.2).1,
                  target := (pyPartitionArrow kv.2).2 } : Entry)]).map
              Entry.type = s.entries.map Entry.type ++ ["Link"]
          simp
      · rename_i hk
        rw [entryKey_none hndF hsk (by rw [hk]; rfl)]
        dsimp only
        unfold doSource at h
        split at h
        · exact Except.noConfusion h
        · injection h with h
          subst h
          exact @modEntry_kinds
            (fun e => { e with sources := e.sources ++ [kv.2] })
            (fun e => rfl) st.sections _ _
      · rename_i hk
        rw [entryKey_none hndF hsk (by rw [hk]; rfl)]
        dsimp only
        unfold doInfo at h
        split at h
        · exact Except.noConfusion h
        · injection h with h
          subst h
          exact @modEntry_kinds
            (fun e => { e with info := kv.2 }) (fun e => rfl)
            st.sections _ _
      · rename_i hk
        rw [entryKey_none hndF hsk (by rw [hk]; rfl)]
        dsimp only
        unfold doOrigin at h
        split at h
        · exact Except.noConfusion h
        · injection h with h
          subst h
          exact @modEntry_kinds
            (fun e => { e with origin := kv.2 }) (fun e => rfl)
            st.sections _ _
      · rename_i hk
        rw [entryKey_none hndF hsk (by
          rcases hk with hk2 | hk2 <;> rw [hk2] <;> rfl)]
        dsimp only
        unfold doLicence at h
        split at h
        · exact Except.noConfusion h
        · injection h with h
          subst h
          exact modLast_map sectionKinds _ _ (fun s => rfl)
      · rename_i hk1 hk2 hk3 hk4 hk5 hk6 hk7 hk8
        rw [entryKey_none hndF hsk (by
          have hf1 : kv.1 ≠ "File" := fun hx => hk2 (Or.inl hx)
          have hf2 : kv.1 ≠ "RawFile" := fun hx => hk2 (Or.inr hx)
          have hf3 : kv.1 ≠ "Link" := hk4
          simp [hf1, hf2, hf3])]
        dsimp only
        exact fallback_kinds h

lemma processLines_kinds :
    ∀ (ls : List String) (st st2 : PState),
      processLines st ls = Except.ok st2 →
      st2.sections.map sectionKinds =
        ls.foldl kindsStep (st.sections.map sectionKinds) := by
  intro ls
  induction ls with
  | nil =>
    intro st st2 h
    unfold processLines at h
    injection h with h
    subst h
    rfl
  | cons raw rest ih =>
    intro st st2 h
    unfold processLines at h
    cases hs : step st raw with
    | error e => rw [hs] at h; exact Except.noConfusion h
    | ok st1 =>
      rw [hs] at h
      rw [List.foldl_cons, ← step_kinds hs]
      exact ih st1 st2 h

lemma stripSection_entries {a s : Section} (h : stripSection a = some s) :
    s.entries = a.entries := by
  unfold stripSection at h
  cases hl : strip a.licence with
  | none => rw [hl] at h; exact Option.noConfusion h
  | some lic =>
    rw [hl] at h
    cases hn : strip a.notes with
    | none => rw [hn] at h; exact Option.noConfusion h
    | some nts =>
      rw [hn] at h
      injection h with h
      subst h
      rfl

lemma mapOpt_map_eq {α β : Type} {f : α → Option α} {g : α → β}
    (hfg : ∀ a b, f a = some b → g b = g a) :
    ∀ {l r : List α}, mapOpt f l = some r → r.map g = l.map g := by
  intro l
  induction l with
  | nil =>
    intro r h
    unfold mapOpt at h
    injection h with h
    subst h
    rfl
  | cons x xs ih =>
    intro r h
    unfold mapOpt at h
    cases hfx : f x with
    | none => rw [hfx] at h; exact Option.noConfusion h
    | some y =>
      rw [hfx] at h
      cases hrest : mapOpt f xs with
      | none => rw [hrest] at h; exact Option.noConfusion h
      | some ys =>
        rw [hrest] at h
        injection h with h
        subst h
        show g y :: ys.map g = g x :: xs.map g
        rw [hfg x y hfx, ih hrest]

lemma entryLine_eq_isSome (raw : String)
    (hnd : isDelim (pyRstrip raw) = false) :
    entryLine raw = (entryKey raw).isSome := by
  unfold entryLine entryKey
  rw [hnd]
  rw [if_neg (by decide)]
  simp only [Bool.not_false, Bool.true_and]
  cases hsk : splitKey (pyRstrip raw) with
  | none => rfl
  | some kv =>
    dsimp only
    cases hc : (decide (kv.1 = "File") || decide (kv.1 = "RawFile") ||
        decide (kv.1 = "Link")) with
    | true => rfl
    | false => rfl

lemma appLast_map_length {α : Type} (x : α) :
    ∀ (acc : List (List α)),
      (appLast acc x).map List.length = incLast (acc.map List.length) := by
  intro acc
  induction acc with
  | nil => rfl
  | cons l rest ih =>
    cases rest with
    | nil => simp [appLast, incLast]
    | cons m ms =>
      show (l :: appLast (m :: ms) x).map List.length =
        incLast (l.length :: (m :: ms).map List.length)
      rw [List.map_cons, ih]
      rfl

lemma counts_eq_kinds_length :
    ∀ (lines : List String) (acc : List (List String)),
      lines.foldl countsStep (acc.map List.length) =
        (lines.foldl kindsStep acc).map List.length := by
  intro lines
  induction lines with
  | nil => intro acc; rfl
  | cons raw rest ih =>
    intro acc
    rw [List.foldl_cons, List.foldl_cons]
    have hstep : countsStep (acc.map List.length) raw =
        (kindsStep acc raw).map List.length := by
      unfold countsStep kindsStep
      cases hd : isDelim (pyRstrip raw) with
      | true => simp
      | false =>
        rw [if_neg (show ¬(false = true) by decide),
            if_neg (show ¬(false = true) by decide)]
        rw [entryLine_eq_isSome raw hd]
        cases hek : entryKey raw with
        | none => rfl
        | some k =>
          rw [if_pos (show (some k).isSome = true from rfl)]
          dsimp only
          exact (appLast_map_length k acc).symm
    rw [hstep]
    exact ih (kindsStep acc raw)

/-- C9: for every section of a successfully parsed document, the entries are
exactly one per `File:`/`RawFile:`/`Link:` keyed line of that section of the
input, in input order: the per-section sequence of entry kinds equals the
per-section sequence of those lines' keys, and in particular the entry count
equals the number of such lines in the section. -/
theorem C9_entries_per_section :
    ∀ (lines : List String) (w : Whence),
      load_whence lines = Except.ok w →
      w.sections.map sectionKinds = entryKinds lines ∧
      w.sections.map (fun s => s.entries.length) = entryCounts lines := by
  intro lines w h
  unfold load_whence at h
  cases hp : processLines {} lines with
  | error e => rw [hp] at h; exact Except.noConfusion h
  | ok st =>
    rw [hp] at h
    dsimp only at h
    cases hs : strip st.header with
    | none => rw [hs] at h; exact Except.noConfusion h
    | some hh =>
      rw [hs] at h
      dsimp only at h
      cases hm : mapOpt stripSection st.sections with
      | none => rw [hm] at h; exact Except.noConfusion h
      | some ss =>
        rw [hm] at h
        injection h with h
        subst h
        have hkinds : ss.map sectionKinds = entryKinds lines := by
          rw [mapOpt_map_eq
            (fun a b hab => by
              show sectionKinds b = sectionKinds a
              unfold sectionKinds
              rw [stripSection_entries hab]) hm]
          exact processLines_kinds lines {} st hp
        refine ⟨hkinds, ?_⟩
        have hlen : ∀ (l : List Section),
            l.map (fun s => s.entries.length) =
              (l.map sectionKinds).map List.length := by
          intro l
          rw [List.map_map]
          exact List.map_congr_left (fun s _ => by
            show s.entries.length = (s.entries.map Entry.type).length
            rw [List.length_map])
        rw [hlen ss, hkinds]
        unfold entryCounts entryKinds
        have := counts_eq_kinds_length lines []
        rw [show (([] : List (List String)).map List.length) = [] from rfl]
          at this
        exact this.symm

/-- Concrete instantiation of the previous theorem. -/
theorem C9_entries_per_section_witness :
    ({ sections := [{ entries := [{ type := "File", path := "a" }] }] }
        : Whence).sections.map sectionKinds =
      entryKinds ["----------", "File: a"] ∧
    ({ sections := [{ entries := [{ type := "File", path := "a" }] }] }
        : Whence).sections.map (fun s => s.entries.length) =
      entryCounts ["----------", "File: a"] :=
  C9_entries_per_section ["----------", "File: a"] _ (by rfl)

lemma lookupS_mem :
    ∀ {l : List (String × SVal)} {k : String} {v : SVal},
      lookupS l k = some v → (k, v) ∈ l := by
  intro l
  induction l with
  | nil => intro k v h; exact Option.noConfusion h
  | cons x xs ih =>
    intro k v h
    unfold lookupS at h
    split at h
    · rename_i hk
      injection h with h
      subst h
      subst hk
      exact List.mem_cons_self _ _
    · exact List.mem_cons_of_mem x (ih h)

lemma mem_setS_of_count :
    ∀ (l : List (String × SVal)) (k : String) (v : SVal)
      (kv : String × SVal),
      (l.filter (fun x => decide (x.1 = k))).length ≤ 1 →
      kv ∈ setS l k v →
      kv = (k, v) ∨ (kv ∈ l ∧ kv.1 ≠ k) := by
  intro l
  induction l with
  | nil =>
    intro k v kv _ hm
    exact absurd hm (by simp [setS])
  | cons x xs ih =>
    intro k v kv hcount hm
    unfold setS at hm
    split at hm
    · rename_i hk
      have hfx : (x :: xs).filter (fun y => decide (y.1 = k)) =
          x :: xs.filter (fun y => decide (y.1 = k)) := by
        rw [List.filter_cons_of_pos]
        simp [hk]
      rw [hfx] at hcount
      simp only [List.length_cons] at hcount
      have hempty : xs.filter (fun y => decide (y.1 = k)) = [] :=
        List.length_eq_zero.mp (by omega)
      rcases List.mem_cons.mp hm with hkv | hkv
      · exact Or.inl hkv
      · refine Or.inr ⟨List.mem_cons_of_mem x hkv, ?_⟩
        intro hkvk
        have : kv ∈ xs.filter (fun y => decide (y.1 = k)) :=
          List.mem_filter.mpr ⟨hkv, by simp [hkvk]⟩
        rw [hempty] at this
        exact absurd this (by simp)
    · rename_i hk
      have hfx : (x :: xs).filter (fun y => decide (y.1 = k)) =
          xs.filter (fun y => decide (y.1 = k)) := by
        rw [List.filter_cons_of_neg]
        simp [hk]
      rw [hfx] at hcount
      rcases List.mem_cons.mp hm with hkv | hkv
      · subst hkv
        exact Or.inr ⟨List.mem_cons_self _ _, hk⟩
      · rcases ih k v kv hcount hkv with h1 | ⟨h1, h2⟩
        · exact Or.inl h1
        · exact Or.inr ⟨List.mem_cons_of_mem x h1, h2⟩

lemma asdictSection_mem_cases {sec : Section} {kv : String × SVal}
    (h : kv ∈ asdictSection sec) :
    kv = ("driver", SVal.str sec.driver) ∨
    kv = ("module", SVal.str sec.module) ∨
    kv = ("description", SVal.str sec.description) ∨
    kv = ("licence", SVal.strs sec.licence) ∨
    kv = ("licence_file", SVal.str sec.licence_file) ∨
    kv = ("notes", SVal.strs sec.notes) ∨
    kv = ("entries", SVal.ents (sec.entries.map asdictEntry)) := by
  simpa [asdictSection] using h

lemma asdictSection_count (sec : Section) :
    ((asdictSection sec).filter
      (fun x => decide (x.1 = "entries"))).length ≤ 1 := by
  show ((asdictSection sec).filter
    (fun x => decide (x.1 = "entries"))).length ≤ 1
  unfold asdictSection
  simp

lemma processSection_asdict_mem {sec : Section} {s : List (String × SVal)}
    (h : processSection (asdictSection sec) = some s) :
    ∀ kv ∈ s,
      emptyS kv.2 = false ∧
      (∀ es', kv.2 = SVal.ents es' →
        ∀ e ∈ es', ∀ kv2 ∈ e, emptyE kv2.2 = false) := by
  unfold processSection at h
  cases hlk : lookupS
      ((asdictSection sec).filter (fun kv => !emptyS kv.2)) "entries" with
  | none => rw [hlk] at h; exact Option.noConfusion h
  | some v =>
    rw [hlk] at h
    cases v with
    | str x => exact Option.noConfusion h
    | strs x => exact Option.noConfusion h
    | ents es =>
      injection h with h
      subst h
      have hes_mem : ("entries", SVal.ents es) ∈
          (asdictSection sec).filter (fun kv => !emptyS kv.2) :=
        lookupS_mem hlk
      have hes_ne : es ≠ [] := by
        have := (List.mem_filter.mp hes_mem).2
        intro hcon
        subst hcon
        simp [emptyS] at this
      have hcount : (((asdictSection sec).filter
          (fun kv => !emptyS kv.2)).filter
            (fun x => decide (x.1 = "entries"))).length ≤ 1 := by
        refine Nat.le_trans (List.Sublist.length_le ?_)
          (asdictSection_count sec)
        exact List.Sublist.filter _ (List.filter_sublist _)
      intro kv hkv
      rcases mem_setS_of_count _ "entries" _ kv hcount hkv with
        hkv1 | ⟨hkv1, hkv2⟩
      · subst hkv1
        constructor
        · show decide (es.map (fun e =>
            e.filter (fun kv => !emptyE kv.2)) = []) = false
          simp [hes_ne]
        · intro es' hes'
          injection hes' with hes'
          subst hes'
          intro e he kv2 hkv2
          obtain ⟨e0, _, he0⟩ := List.mem_map.mp he
          subst he0
          have := (List.mem_filter.mp hkv2).2
          simpa using this
      · constructor
        · have := (List.mem_filter.mp hkv1).2
          simpa using this
        · intro es' hes'
          exfalso
          have hmem := (List.mem_filter.mp hkv1).1
          rcases asdictSection_mem_cases hmem with
            h1 | h1 | h1 | h1 | h1 | h1 | h1 <;> rw [h1] at hes' hkv2
          · exact SVal.noConfusion hes'
          · exact SVal.noConfusion hes'
          · exact SVal.noConfusion hes'
          · exact SVal.noConfusion hes'
          · exact SVal.noConfusion hes'
          · exact SVal.noConfusion hes'
          · exact hkv2 rfl

/-- C10: with `remove_empty` set, the emitted structure always keeps the
document-level header and sections keys, while every section mapping and
every entry mapping inside it has been filtered of all fields whose value was
an empty string or empty sequence (each mapping filtered independently);
with `remove_empty` unset, the full `asdict` image with every field of every
mapping is emitted. -/
theorem C10_omit_empty_filtering :
    (∀ (w : Whence) (d : List (String × TVal)), save_yaml w true = some d →
        ∃ ss, d = [("header", TVal.strs w.header),
                   ("sections", TVal.secs ss)] ∧
          ∀ s ∈ ss, ∀ kv ∈ s,
            emptyS kv.2 = false ∧
            (∀ es', kv.2 = SVal.ents es' →
              ∀ e ∈ es', ∀ kv2 ∈ e, emptyE kv2.2 = false)) ∧
    (∀ w : Whence, save_yaml w false = some (asdictWhence w)) := by
  constructor
  · intro w d h
    unfold save_yaml at h
    rw [if_pos rfl] at h
    cases hm : mapOpt processSection (w.sections.map asdictSection) with
    | none => rw [hm] at h; exact Option.noConfusion h
    | some ss =>
      rw [hm] at h
      injection h with h
      subst h
      refine ⟨ss, rfl, ?_⟩
      intro s hs
      obtain ⟨a, hal, ha⟩ := mapOpt_mem hm s hs
      obtain ⟨sec, _, hsec⟩ := List.mem_map.mp hal
      subst hsec
      exact processSection_asdict_mem ha
  · intro w
    rfl

/-- Concrete instantiation of the filtering part of the previous theorem. -/
theorem C10_omit_empty_filtering_witness :
    ∃ ss,
      ([("header", TVal.strs ([] : List String)),
        ("sections", TVal.secs
          [[("entries", SVal.ents
              [[("type", EVal.str "File"), ("path", EVal.str "a")]])]])]
        : List (String × TVal)) =
        [("header", TVal.strs
            ({ sections := [{ entries := [{ type := "File", path := "a" }] }] }
              : Whence).header),
         ("sections", TVal.secs ss)] ∧
      ∀ s ∈ ss, ∀ kv ∈ s,
        emptyS kv.2 = false ∧
        (∀ es', kv.2 = SVal.ents es' →
          ∀ e ∈ es', ∀ kv2 ∈ e, emptyE kv2.2 = false) :=
  C10_omit_empty_filtering.1
    { sections := [{ entries := [{ type := "File", path := "a" }] }] }
    [("header", TVal.strs []),
     ("sections", TVal.secs
       [[("entries", SVal.ents
           [[("type", EVal.str "File"), ("path", EVal.str "a")]])]])]
    (by rfl)

end WhencePy
